import Mathlib

/-
Verification of the lock-free Treiber stack in src/src/stack.rs.

The development uses three embeddings of the same source file:

1. A sequential value model: a stack is the list of values along the chain
   starting at `head` (index 0 of the list is the node `head` points to).
   In a single-threaded run every compare-and-swap in `push`/`pop` succeeds
   on its first attempt, so the retry loops execute their body exactly once;
   the functions below are those loop bodies.  This model settles the
   ordering and emptiness claims about `push`, `pop`, `pop_all`, `from_vec`,
   `node_from_frag_vec`, `iter_at_head` and the iterator.

2. A heap model (`HStack`): nodes live in an allocation arena (a list of
   `HNode`, the position in the list is the node identity, mirroring its
   address), `next` and `head` are optional indices (`none` is the null
   pointer).  Allocation appends to the arena; nothing is ever removed from
   it, mirroring the epoch reclamation substrate which keeps detached nodes
   alive while readers may still hold references.  This model settles the
   claims about `cap`, `cas` and the immutability of published links.

3. A trace model on top of the heap model: a concurrent execution is an
   arbitrary interleaving of the atomic successful compare-and-swap events
   of `push` and `pop` (a failed CAS changes no shared state — the loser
   only rewrites the `next` field of its own not-yet-published node — so
   the shared-state history of any concurrent run is exactly such a trace).
   This model settles the linearizability claim about `pop`.
-/

set_option autoImplicit false

namespace RsdbSpec

/-! ## Sequential value model -/

/-- Source `Stack::push` (body of the retry loop, with the CAS succeeding):
allocate a node holding `inner`, point its `next` at the current head and
install it as the new head. -/
def push {α : Type} (s : List α) (inner : α) : List α :=
  inner :: s

/-- Source `Stack::pop` (body of the retry loop, with the CAS succeeding):
read `head`; if null return `None`; otherwise swing `head` to the nodes
`next` and return the detached nodes value. -/
def pop {α : Type} (s : List α) : Option α × List α :=
  match s with
  | [] => (none, [])
  | x :: xs => (some x, xs)

/-- Source `Stack::pop_all`: pop repeatedly until `pop` returns `None`,
collecting the values in pop order. -/
def pop_all {α : Type} : List α → List α
  | [] => []
  | x :: xs => x :: pop_all xs

/-- Pushing a whole sequence one element at a time, left to right. -/
def push_seq {α : Type} (s : List α) (vs : List α) : List α :=
  vs.foldl push s

/-- Source `Stack::from_vec`: start from the default (empty) stack and push
the elements of the vector in reverse iteration order. -/
def from_vec {α : Type} (v : List α) : List α :=
  push_seq [] v.reverse

/-- Source `Stack::from_raw`: a stack whose head is stored from a raw chain;
in the value model the stack simply is the chain. -/
def from_raw {α : Type} (chain : List α) : List α :=
  chain

/-- Source `node_from_frag_vec`: walk the vector in reverse iteration order,
allocating for each element a node whose `next` is the chain built so far,
and return the last node allocated (the head of the chain). -/
def node_from_frag_vec {α : Type} (v : List α) : List α :=
  v.reverse.foldl (fun last item => item :: last) []

/-- Source `Iterator::next` for `StackIter`: if the cursor is null yield
`None`, otherwise yield the value under the cursor and advance the cursor
along the `next` link. -/
def iter_next {α : Type} (it : List α) : Option α × List α :=
  match it with
  | [] => (none, [])
  | x :: xs => (some x, xs)

/-- Running a `StackIter` to exhaustion: repeated `iter_next` until `None`. -/
def iter_run {α : Type} : List α → List α
  | [] => []
  | x :: xs => x :: iter_run xs

/-- Source `IntoIterator for &Stack`: an iterator whose cursor starts at the
current head, with no emptiness check. -/
def into_iter {α : Type} (s : List α) : List α :=
  s

/-- Source `Stack::iter_at_head`: read `head`; if it is null the process is
aborted (modelled as `none`); otherwise return the captured head pointer
together with an iterator whose cursor starts at that head. -/
def iter_at_head {α : Type} (s : List α) : Option (List α × List α) :=
  match s with
  | [] => none
  | l => some (l, l)

/-! ### Basic lemmas about the sequential model -/

theorem pop_all_eq_self {α : Type} : ∀ s : List α, pop_all s = s
  | [] => rfl
  | _ :: xs => congrArg _ (pop_all_eq_self xs)

theorem push_seq_eq_reverse_append {α : Type} (vs : List α) :
    ∀ s : List α, push_seq s vs = vs.reverse ++ s := by
  induction vs with
  | nil => intro s; rfl
  | cons v vs ih =>
      intro s
      show push_seq (push s v) vs = _
      rw [ih (push s v)]
      simp [push]

theorem node_from_frag_vec_eq_self {α : Type} (v : List α) :
    node_from_frag_vec v = v := by
  have h : ∀ (l acc : List α), l.foldl (fun last item => item :: last) acc
      = l.reverse ++ acc := by
    intro l
    induction l with
    | nil => intro acc; rfl
    | cons x xs ih => intro acc; simp [List.foldl, ih]
  simp [node_from_frag_vec, h]

/-! ### Claim theorems for the sequential model -/

/-- Claim C1: pushing v1, ..., vn in that order onto an initially empty
stack and then draining with `pop_all` returns exactly the reversed
sequence — strict LIFO order, nothing lost, nothing duplicated. -/
theorem push_then_pop_all_is_reverse {α : Type} (vs : List α) :
    pop_all (push_seq [] vs) = vs.reverse := by
  rw [push_seq_eq_reverse_append, pop_all_eq_self]
  simp

/-- Claim C3: popping a stack whose head is null returns the empty
indication and leaves the stack unchanged.  The embedding is a total
function, so no panic is possible on this path (the source path reads
`head`, sees null and returns immediately). -/
theorem pop_empty_returns_none (α : Type) :
    pop ([] : List α) = (none, []) :=
  rfl

/-- Claim C4: `from_vec` builds a stack whose `pop_all` returns exactly the
original vector in the same order — vector order is preserved as pop
order. -/
theorem from_vec_pop_all_id {α : Type} (v : List α) :
    pop_all (from_vec v) = v := by
  rw [from_vec, push_seq_eq_reverse_append, pop_all_eq_self]
  simp

/-- Claim C6: `node_from_frag_vec` builds, in one pass, a chain whose head
holds the first element of the sequence and whose links preserve the
sequence order, so that splicing the chain in as the stack head makes
`pop_all` yield the elements in the original sequence order. -/
theorem node_from_frag_vec_preserves_order {α : Type} (v : List α) :
    pop_all (from_raw (node_from_frag_vec v)) = v
    ∧ (node_from_frag_vec v).head? = v.head? := by
  rw [from_raw, node_from_frag_vec_eq_self, pop_all_eq_self]
  exact ⟨rfl, rfl⟩

/-- Claim C7: `iter_at_head` on an empty stack hits the abort path
(modelled by `none`) instead of returning an empty sequence; on a
non-empty stack it returns the captured head together with an iterator
starting at that head, and that iterator yields the chain elements in
order. -/
theorem iter_at_head_spec {α : Type} (s : List α) :
    iter_at_head s = (if s.isEmpty then none else some (s, s))
    ∧ iter_run s = s := by
  constructor
  · cases s <;> rfl
  · induction s with
    | nil => rfl
    | cons x xs ih => simp [iter_run, ih]

/-- Claim C10: iterating an empty stack through the `IntoIterator`
interface yields the empty sequence — the first `next` call immediately
returns `None` (total, no panic) — in contrast to `iter_at_head`, which
hits the abort path on the same stack. -/
theorem into_iter_empty_yields_nothing (α : Type) :
    iter_next (into_iter ([] : List α)) = (none, [])
    ∧ iter_at_head ([] : List α) = none :=
  ⟨rfl, rfl⟩

/-! ## Heap model -/

/-- Source `Node<T>`: an owned value plus an atomic forward link.  Node
identity is its arena index; `next` is an optional index, `none` being the
null pointer. -/
structure HNode (α : Type) where
  value : α
  next : Option Nat
  deriving DecidableEq

/-- Source `Stack<T>` together with its allocation arena.  `heap` is the
set of nodes ever allocated (allocation appends, reclamation is deferred,
so indices stay valid); `head` is the atomic head slot. -/
structure HStack (α : Type) where
  heap : List (HNode α)
  head : Option Nat
  deriving DecidableEq

/-- Source `Stack::push` in the heap model (retry-loop body with the CAS
succeeding): allocate a fresh node whose `next` is the observed head and
swing `head` to it. -/
def hpush {α : Type} (s : HStack α) (inner : α) : HStack α :=
  ⟨s.heap ++ [⟨inner, s.head⟩], some s.heap.length⟩

/-- Source `Stack::pop` in the heap model (retry-loop body with the CAS
succeeding): if `head` is null return `None`; otherwise swing `head` to the
head nodes `next` and return the detached nodes value.  The node itself
stays in the arena — it is handed to the reclamation substrate, not freed. -/
def hpop {α : Type} (s : HStack α) : Option α × HStack α :=
  match s.head with
  | none => (none, s)
  | some n =>
      ((s.heap[n]?).map HNode.value,
       ⟨s.heap, (s.heap[n]?).bind HNode.next⟩)

/-- Source `Stack::pop_all` in the heap model, with explicit fuel (the
sequential drain of a finite chain terminates; fuel only truncates). -/
def hpop_all {α : Type} : HStack α → Nat → List α × HStack α
  | s, 0 => ([], s)
  | s, fuel + 1 =>
      match hpop s with
      | (none, s2) => ([], s2)
      | (some x, s2) =>
          let r := hpop_all s2 fuel
          (x :: r.1, r.2)

/-- Source `Stack::cas`: one compare-and-swap of the head slot from `old`
to `new` (both non-null node references), no retry.  `res` is the previous
value of the slot; the swap happens exactly when it equals `old`.  The
process-wide fault-injection hook `test_fail` is consulted after the swap
and only flips the reported result, never the slot. -/
def hcas {α : Type} (s : HStack α) (old new : Nat) (test_fail : Bool) :
    HStack α × Except (Option Nat) Nat :=
  let res := s.head
  let s2 := if s.head = some old then { s with head := some new } else s
  if res = some old ∧ test_fail = false then (s2, Except.ok new)
  else (s2, Except.error res)

/-- Source `Stack::cap`, read charitably.  The body as written does not
compile (it tests an identifier `res` that is never bound, and its failure
branch returns `self.head()`, an `Option`, where the signature declares a
`Result`); this definition keeps every effect the body does perform: the
node is allocated with `next` stored to `old`, the single
`cas_and_ref(old, node)` swings `head` to the new node exactly when `head`
equals `old`, the reported outcome is gated on the fault hook, and the
failure branch re-reads `head` after the CAS. -/
def hcap {α : Type} (s : HStack α) (old : Option Nat) (new : α)
    (test_fail : Bool) : HStack α × Except (Option Nat) Nat :=
  let idx := s.heap.length
  let heap2 := s.heap ++ [⟨new, old⟩]
  let s2 : HStack α :=
    if s.head = old then ⟨heap2, some idx⟩ else ⟨heap2, s.head⟩
  if s.head = old ∧ test_fail = false then (s2, Except.ok idx)
  else (s2, Except.error s2.head)

/-! ### Claim theorems for the heap model -/

/-- Claim C5: with the fault hook unset (its state outside tests), `cas`
performs exactly one compare-and-swap of the head slot — the definition is
straight-line, no retry — and returns `ok new` with the head swung to `new`
exactly when the head equalled `old` at the swap, and otherwise returns
`error` carrying the value the head actually held, leaving the stack
unchanged. -/
theorem cas_single_swap_spec {α : Type} (s : HStack α) (old new : Nat) :
    hcas s old new false =
      (if s.head = some old then ({ s with head := some new }, Except.ok new)
       else (s, Except.error s.head)) := by
  by_cases h : s.head = some old <;> simp [hcas, h]

/-- Claim C2, divergence exhibit for the compare-and-push routine: on an
empty stack with `old = none` (so the head equals `old` at the moment of
the compare-and-swap) and the fault hook set, `cap` installs the new node —
the head moves from `none` to the fresh node — yet reports failure, and the
value it reports is the head re-read after the mutation.  The claim says a
failing `cap` leaves the stack unchanged and fails only when the head
differs from `old`; the code (even under the charitable reading of its
non-compiling body) does neither. -/
theorem cap_failure_can_mutate_stack :
    (hcap (⟨[], none⟩ : HStack Nat) none 7 true).2 = Except.error (some 0)
    ∧ (hcap (⟨[], none⟩ : HStack Nat) none 7 true).1.head = some 0
    ∧ (⟨[], none⟩ : HStack Nat).head = none := by
  refine ⟨rfl, rfl, rfl⟩

/-- Claim C8: no operation ever rewrites a node that is already in the
arena — `push` and `cap` only append a fresh node, `pop`, `pop_all` and
`cas` touch nothing but the head slot — so in particular the `next` link of
every node reachable from `head` is immutable once published. -/
theorem published_nodes_immutable {α : Type} (s : HStack α) (v : α)
    (old : Option Nat) (o n : Nat) (tf : Bool) (fuel : Nat)
    (i : Nat) (h : i < s.heap.length) :
    (hpush s v).heap[i]? = s.heap[i]?
    ∧ (hpop s).2.heap[i]? = s.heap[i]?
    ∧ (hpop_all s fuel).2.heap[i]? = s.heap[i]?
    ∧ (hcap s old v tf).1.heap[i]? = s.heap[i]?
    ∧ (hcas s o n tf).1.heap[i]? = s.heap[i]? := by
  have happ : ∀ x : HNode α, (s.heap ++ [x])[i]? = s.heap[i]? :=
    fun _ => List.getElem?_append_left h
  have hpop_heap : ∀ t : HStack α, (hpop t).2.heap = t.heap := by
    intro t
    cases ht : t.head <;> simp [hpop, ht]
  have hdrain : ∀ (f : Nat) (t : HStack α), (hpop_all t f).2.heap = t.heap := by
    intro f
    induction f with
    | zero => intro t; rfl
    | succ f ih =>
        intro t
        cases hp : hpop t with
        | mk x t2 =>
            have h2 : t2.heap = t.heap := by
              have := hpop_heap t
              rw [hp] at this
              exact this
            cases x with
            | none => simp [hpop_all, hp, h2]
            | some a => simp [hpop_all, hp, ih t2, h2]
  refine ⟨?_, ?_, ?_, ?_, ?_⟩
  · simp [hpush, happ]
  · rw [hpop_heap]
  · rw [hdrain]
  · cases tf <;> by_cases hh : s.head = old <;> simp [hcap, hh, happ]
  · cases tf <;> by_cases hh : s.head = some o <;> simp [hcas, hh]

/-- Witness for the published-node immutability theorem at a concrete
one-node stack. -/
theorem published_nodes_immutable_witness :
    (0 < (⟨[⟨1, none⟩], some 0⟩ : HStack Nat).heap.length)
    ∧ ((hpush (⟨[⟨1, none⟩], some 0⟩ : HStack Nat) 2).heap[0]?
        = (⟨[⟨1, none⟩], some 0⟩ : HStack Nat).heap[0]?
      ∧ (hpop (⟨[⟨1, none⟩], some 0⟩ : HStack Nat)).2.heap[0]?
        = (⟨[⟨1, none⟩], some 0⟩ : HStack Nat).heap[0]?
      ∧ (hpop_all (⟨[⟨1, none⟩], some 0⟩ : HStack Nat) 3).2.heap[0]?
        = (⟨[⟨1, none⟩], some 0⟩ : HStack Nat).heap[0]?
      ∧ (hcap (⟨[⟨1, none⟩], some 0⟩ : HStack Nat) none 2 false).1.heap[0]?
        = (⟨[⟨1, none⟩], some 0⟩ : HStack Nat).heap[0]?
      ∧ (hcas (⟨[⟨1, none⟩], some 0⟩ : HStack Nat) 0 0 false).1.heap[0]?
        = (⟨[⟨1, none⟩], some 0⟩ : HStack Nat).heap[0]?) :=
  ⟨by decide,
   published_nodes_immutable (⟨[⟨1, none⟩], some 0⟩ : HStack Nat) 2 none 0 0
     false 3 0 (by decide)⟩

/-! ## Trace model for concurrent executions -/

/-- Atomic shared-state events of a concurrent run of the stack: a
successful `push` CAS and a successful `pop` CAS (or a `pop` that observed
a null head and returned).  A CAS attempt that loses its race changes no
shared state — the losing `push` iteration only rewrites the `next` field
of its own, still unpublished node, and the losing `pop` iteration only
discards its stale reads — so the shared-state history of any concurrent
execution by any number of threads is an interleaving of these events. -/
inductive Evt (α : Type) where
  | push (v : α)
  | pop

/-- Node indices along the chain starting at a pointer, following `next`
links, with explicit fuel.  Under the `Descent` invariant below, fuel
`heap.length` always suffices. -/
def chainF {α : Type} (heap : List (HNode α)) : Option Nat → Nat → List Nat
  | none, _ => []
  | some _, 0 => []
  | some n, fuel + 1 => n :: chainF heap ((heap[n]?).bind HNode.next) fuel

/-- The chain of node indices reachable from the head of a stack. -/
def chain {α : Type} (s : HStack α) : List Nat :=
  chainF s.heap s.head s.heap.length

/-- Interleaved execution of a trace of events from a given state: the
final state together with the indices of the nodes detached by the
successful pops, in detach order.  A pop that observes a null head detaches
nothing; a pop whose CAS succeeds detaches exactly the head node it
observed.  (The source `pop` reads the `next` of the observed node before
its CAS, but published links are immutable — `published_nodes_immutable` —
so that earlier read equals the value used here.) -/
def run_events {α : Type} : List (Evt α) → HStack α → HStack α × List Nat
  | [], s => (s, [])
  | Evt.push v :: es, s => run_events es (hpush s v)
  | Evt.pop :: es, s =>
      match s.head with
      | none => run_events es s
      | some n =>
          ((run_events es (hpop s).2).1, n :: (run_events es (hpop s).2).2)

/-- Invariant: every `next` link points to a strictly earlier arena index
(a node can only link to a node that was already published when it was
created). -/
abbrev Descent {α : Type} (heap : List (HNode α)) : Prop :=
  ∀ (i : Nat) (nd : HNode α) (j : Nat),
    heap[i]? = some nd → nd.next = some j → j < i

theorem chainF_mem_le {α : Type} {heap : List (HNode α)} (hd : Descent heap) :
    ∀ (fuel n m : Nat), m ∈ chainF heap (some n) fuel → m ≤ n := by
  intro fuel
  induction fuel with
  | zero => intro n m hm; simp [chainF] at hm
  | succ f ih =>
      intro n m hm
      simp only [chainF] at hm
      rcases List.mem_cons.mp hm with h1 | h2
      · exact h1.le
      · cases hnx : (heap[n]?).bind HNode.next with
        | none => rw [hnx] at h2; simp [chainF] at h2
        | some j =>
            rw [hnx] at h2
            rcases Option.bind_eq_some.mp hnx with ⟨nd, hnd, hnext⟩
            exact le_of_lt (lt_of_le_of_lt (ih j m h2) (hd n nd j hnd hnext))

theorem chainF_nodup {α : Type} {heap : List (HNode α)} (hd : Descent heap) :
    ∀ (fuel : Nat) (o : Option Nat), (chainF heap o fuel).Nodup := by
  intro fuel
  induction fuel with
  | zero => intro o; cases o <;> simp [chainF]
  | succ f ih =>
      intro o
      cases o with
      | none => simp [chainF]
      | some n =>
          simp only [chainF]
          refine List.nodup_cons.mpr ⟨?_, ih _⟩
          intro hmem
          cases hnx : (heap[n]?).bind HNode.next with
          | none => rw [hnx] at hmem; simp [chainF] at hmem
          | some j =>
              rw [hnx] at hmem
              rcases Option.bind_eq_some.mp hnx with ⟨nd, hnd, hnext⟩
              have h1 : n ≤ j := chainF_mem_le hd f j n hmem
              have h2 : j < n := hd n nd j hnd hnext
              omega

theorem chainF_fuel_stable {α : Type} {heap : List (HNode α)}
    (hd : Descent heap) :
    ∀ (n f g : Nat), n < f → n < g →
      chainF heap (some n) f = chainF heap (some n) g := by
  intro n
  induction n using Nat.strong_induction_on with
  | _ n ih =>
      intro f g hf hg
      cases f with
      | zero => omega
      | succ f0 =>
          cases g with
          | zero => omega
          | succ g0 =>
              simp only [chainF]
              cases hnx : (heap[n]?).bind HNode.next with
              | none => simp [chainF]
              | some j =>
                  rcases Option.bind_eq_some.mp hnx with ⟨nd, hnd, hnext⟩
                  have hj : j < n := hd n nd j hnd hnext
                  exact congrArg _ (ih j hj f0 g0 (by omega) (by omega))

theorem chainF_append {α : Type} {heap : List (HNode α)} {x : HNode α} :
    ∀ (fuel : Nat) (o : Option Nat),
      (∀ m ∈ chainF heap o fuel, m < heap.length) →
      chainF (heap ++ [x]) o fuel = chainF heap o fuel := by
  intro fuel
  induction fuel with
  | zero => intro o _; cases o <;> rfl
  | succ f ih =>
      intro o hb
      cases o with
      | none => rfl
      | some n =>
          have hn : n < heap.length := by
            refine hb n ?_
            simp only [chainF]
            exact List.mem_cons_self _ _
          simp only [chainF, List.getElem?_append_left hn]
          refine congrArg _ (ih _ ?_)
          intro m hm
          refine hb m ?_
          simp only [chainF]
          exact List.mem_cons_of_mem _ hm

theorem chain_mem_lt {α : Type} {s : HStack α} (hd : Descent s.heap)
    (hh : ∀ n, s.head = some n → n < s.heap.length) :
    ∀ m ∈ chain s, m < s.heap.length := by
  intro m hm
  unfold chain at hm
  cases hhead : s.head with
  | none => rw [hhead] at hm; simp [chainF] at hm
  | some n =>
      rw [hhead] at hm
      exact lt_of_le_of_lt (chainF_mem_le hd _ n m hm) (hh n hhead)

theorem descent_append {α : Type} {heap : List (HNode α)} {x : HNode α}
    (hd : Descent heap) (hx : ∀ j, x.next = some j → j < heap.length) :
    Descent (heap ++ [x]) := by
  intro i nd j hget hnext
  by_cases hi : i < heap.length
  · exact hd i nd j (by rw [← List.getElem?_append_left hi]; exact hget) hnext
  · have hlen : i < (heap ++ [x]).length := by
      by_contra hc
      rw [List.getElem?_eq_none (by omega)] at hget
      exact Option.noConfusion hget
    have hieq : i = heap.length := by
      simp only [List.length_append, List.length_cons, List.length_nil] at hlen
      omega
    subst hieq
    rw [List.getElem?_concat_length] at hget
    cases hget
    exact lt_of_lt_of_le (hx j hnext) (le_refl _)

theorem chain_hpush {α : Type} (s : HStack α) (v : α) (hd : Descent s.heap)
    (hh : ∀ n, s.head = some n → n < s.heap.length) :
    chain (hpush s v) = s.heap.length :: chain s := by
  have hx : (hpush s v).heap = s.heap ++ [(⟨v, s.head⟩ : HNode α)] := rfl
  have hhd : (hpush s v).head = some s.heap.length := rfl
  unfold chain
  rw [hx, hhd]
  have hlen : (s.heap ++ [(⟨v, s.head⟩ : HNode α)]).length
      = s.heap.length + 1 := by simp
  rw [hlen]
  have hstep : chainF (s.heap ++ [(⟨v, s.head⟩ : HNode α)])
      (some s.heap.length) (s.heap.length + 1)
      = s.heap.length
        :: chainF (s.heap ++ [(⟨v, s.head⟩ : HNode α)]) s.head s.heap.length := by
    simp [chainF, List.getElem?_concat_length]
  rw [hstep]
  exact congrArg _ (chainF_append s.heap.length s.head (chain_mem_lt hd hh))

theorem chain_hpop {α : Type} (s : HStack α) (n : Nat) (hd : Descent s.heap)
    (hh : ∀ m, s.head = some m → m < s.heap.length) (hhead : s.head = some n) :
    chain s = n :: chain ⟨s.heap, (s.heap[n]?).bind HNode.next⟩ := by
  unfold chain
  rw [hhead]
  have hn : n < s.heap.length := hh n hhead
  obtain ⟨L, hL⟩ : ∃ L, s.heap.length = L + 1 := ⟨s.heap.length - 1, by omega⟩
  rw [hL]
  simp only [chainF]
  refine congrArg _ ?_
  cases hnx : (s.heap[n]?).bind HNode.next with
  | none => simp [chainF]
  | some j =>
      rcases Option.bind_eq_some.mp hnx with ⟨nd, hnd, hnext⟩
      have hj : j < n := hd n nd j hnd hnext
      exact chainF_fuel_stable hd j L (L + 1) (by omega) (by omega)

theorem run_events_perm {α : Type} :
    ∀ (tr : List (Evt α)) (s : HStack α) (popped : List Nat),
      Descent s.heap →
      (∀ n, s.head = some n → n < s.heap.length) →
      (popped ++ chain s).Perm (List.range s.heap.length) →
      ((popped ++ (run_events tr s).2) ++ chain (run_events tr s).1).Perm
        (List.range (run_events tr s).1.heap.length) := by
  intro tr
  induction tr with
  | nil =>
      intro s popped _ _ hperm
      simpa [run_events] using hperm
  | cons e es ih =>
      intro s popped hd hh hperm
      cases e with
      | push v =>
          have hd2 : Descent (hpush s v).heap := by
            refine descent_append hd ?_
            intro j hj
            exact hh j hj
          have hh2 : ∀ n, (hpush s v).head = some n →
              n < (hpush s v).heap.length := by
            intro n hn
            simp only [hpush] at hn ⊢
            cases hn
            simp
          have hperm2 : (popped ++ chain (hpush s v)).Perm
              (List.range (hpush s v).heap.length) := by
            rw [chain_hpush s v hd hh]
            have e1 : (popped ++ s.heap.length :: chain s).Perm
                (s.heap.length :: (popped ++ chain s)) :=
              List.perm_middle
            have e2 : (s.heap.length :: (popped ++ chain s)).Perm
                (s.heap.length :: List.range s.heap.length) :=
              hperm.cons _
            have e3 : (s.heap.length :: List.range s.heap.length).Perm
                (List.range s.heap.length ++ [s.heap.length]) := by
              simpa using
                (@List.perm_middle Nat s.heap.length
                  (List.range s.heap.length) []).symm
            have e4 : (List.range s.heap.length ++ [s.heap.length])
                = List.range (s.heap.length + 1) :=
              (List.range_succ s.heap.length).symm
            have hlen : (hpush s v).heap.length = s.heap.length + 1 := by
              simp [hpush]
            rw [hlen, ← e4]
            exact (e1.trans e2).trans e3
          simpa [run_events] using ih (hpush s v) popped hd2 hh2 hperm2
      | pop =>
          cases hhead : s.head with
          | none =>
              have hrun : run_events (Evt.pop :: es) s = run_events es s := by
                simp [run_events, hhead]
              rw [hrun]
              exact ih s popped hd hh hperm
          | some n =>
              have hn : n < s.heap.length := hh n hhead
              have hpop2 : (hpop s).2
                  = ⟨s.heap, (s.heap[n]?).bind HNode.next⟩ := by
                simp [hpop, hhead]
              have hd2 : Descent ((hpop s).2).heap := by rw [hpop2]; exact hd
              have hh2 : ∀ m, ((hpop s).2).head = some m →
                  m < ((hpop s).2).heap.length := by
                rw [hpop2]
                intro m hm
                rcases Option.bind_eq_some.mp hm with ⟨nd, hnd, hnext⟩
                exact lt_trans (hd n nd m hnd hnext) hn
              have hperm2 : ((popped ++ [n]) ++ chain (hpop s).2).Perm
                  (List.range ((hpop s).2).heap.length) := by
                rw [hpop2]
                rw [List.append_assoc, List.singleton_append]
                show (popped ++ n :: chain ⟨s.heap, (s.heap[n]?).bind HNode.next⟩).Perm
                  (List.range s.heap.length)
                rw [← chain_hpop s n hd hh hhead]
                exact hperm
              have := ih (hpop s).2 (popped ++ [n]) hd2 hh2 hperm2
              have hrun : run_events (Evt.pop :: es) s
                  = ((run_events es (hpop s).2).1,
                     n :: (run_events es (hpop s).2).2) := by
                simp [run_events, hhead]
              rw [hrun]
              simpa [List.append_assoc] using this

/-- Claim C9: in every interleaving of the atomic head-CAS events of
concurrent pushes and pops, starting from the empty stack, the successful
pops detach pairwise distinct nodes — the CAS on `head` admits at most one
winner per node — and the detached nodes together with the nodes still on
the chain account for every allocated node exactly once, so each
successful pop corresponds to exactly one node leaving the chain. -/
theorem pop_linearizable {α : Type} (tr : List (Evt α)) :
    (run_events tr (⟨[], none⟩ : HStack α)).2.Nodup
    ∧ ((run_events tr (⟨[], none⟩ : HStack α)).2
        ++ chain (run_events tr (⟨[], none⟩ : HStack α)).1).Perm
      (List.range (run_events tr (⟨[], none⟩ : HStack α)).1.heap.length) := by
  have h0 : Descent (⟨[], none⟩ : HStack α).heap := by
    intro i nd j hget _
    simp at hget
  have h1 : ∀ n, (⟨[], none⟩ : HStack α).head = some n
      → n < (⟨[], none⟩ : HStack α).heap.length := by
    intro n hn
    exact Option.noConfusion hn
  have h2 : (([] : List Nat) ++ chain (⟨[], none⟩ : HStack α)).Perm
      (List.range (⟨[], none⟩ : HStack α).heap.length) := by
    simp [chain, chainF]
  have hmain := run_events_perm tr (⟨[], none⟩ : HStack α) [] h0 h1 h2
  rw [List.nil_append] at hmain
  refine ⟨?_, hmain⟩
  have hnd : ((run_events tr (⟨[], none⟩ : HStack α)).2
      ++ chain (run_events tr (⟨[], none⟩ : HStack α)).1).Nodup :=
    (hmain.nodup_iff).mpr (List.nodup_range _)
  exact hnd.of_append_left

end RsdbSpec
